import Mathlib

/-!
Verification development for the Bloom filter core of keyhunt
(src/keyhunt-msvc/bloom/bloom.cpp).

The C code is shallowly embedded: the `struct bloom` becomes the `Bloom`
structure, the byte buffer `bf` becomes a `List Nat` of byte values, and
64-bit unsigned arithmetic is carried out in `Nat` with explicit `% 2 ^ 64`
where the C code can wrap.  The external hash primitive XXH64 (declared in
xxhash.h, outside this repository's core) is a parameter of every operation
that hashes, exactly as the specification treats it: an arbitrary function
from data and seed to a 64-bit value.  File I/O is modelled by explicit
file-content values and success flags for each `open`/`read`/`write`/
`malloc` call; a read that transfers fewer bytes than requested is a
distinguished constructor.  The platform-conditional code (WIN64 versus
POSIX branches) is modelled after the portable POSIX branch; mutex
acquisition in bloom_add has no observable effect in this single-threaded
semantics and is dropped.
-/

namespace KeyhuntBloom

/-- 2^64, the modulus of C uint64_t arithmetic. -/
def U64 : Nat := 2 ^ 64

/-- The fixed first-hash seed 0x59f2815b16f81798 from bloom_check_add. -/
def SEED0 : Nat := 0x59f2815b16f81798

/-- BLOOM_VERSION_MAJOR from bloom.cpp. -/
def BLOOM_VERSION_MAJOR : Nat := 2

/-- BLOOM_VERSION_MINOR from bloom.cpp. -/
def BLOOM_VERSION_MINOR : Nat := 1

/-- The bytes of the magic string BLOOM_MAGIC = "libbloom2" (9 bytes,
terminating NUL not written by the POSIX save branch). -/
def bloomMagic : List Nat := [108, 105, 98, 98, 108, 111, 111, 109, 50]

/-- The `struct bloom` record: entries, error, bpe, bits, bytes, hashes,
the byte buffer bf (NULL modelled as []), ready, major, minor.  The error
and bpe fields are long double in C; they are carried as rationals here and
only ever copied or compared in the embedded operations. -/
structure Bloom where
  entries : Nat
  error : ℚ
  bpe : ℚ
  bits : Nat
  bytes : Nat
  hashes : Nat
  bf : List Nat
  ready : Bool
  major : Nat
  minor : Nat
deriving DecidableEq

/-- The all-zero struct produced by memset(bloom, 0, sizeof(struct bloom)). -/
def emptyBloom : Bloom :=
  ⟨0, 0, 0, 0, 0, 0, [], false, 0, 0⟩

/-- Embedding of test_bit_set_bit: byte index is bit >> 3, the mask is the
uint8_t value 1 << (bit % 8); returns 1 and leaves the buffer alone if the
bit is set, otherwise returns 0, setting the bit first when set_bit holds. -/
def test_bit_set_bit (buf : List Nat) (bit : Nat) ( set_bit : Bool) : Nat × List Nat :=
  let byte := bit >>> 3
  let c := buf.getD byte 0
  let mask := (1 <<< (bit % 8)) % 256
  if c &&& mask ≠ 0 then (1, buf)
  else if set_bit then (0, buf.set byte (c ||| mask))
  else (0, buf)

/-- Bit `x` is set in the buffer, with the addressing convention of
test_bit_set_bit (byte x >> 3, mask 1 << (x % 8)). -/
def bitSet (buf : List Nat) (x : Nat) : Prop :=
  buf.getD (x >>> 3) 0 &&& (1 <<< (x % 8)) % 256 ≠ 0

instance (buf : List Nat) (x : Nat) : Decidable (bitSet buf x) := by
  unfold bitSet; infer_instance

/-- Result of the hashing loop of bloom_check_add: the early flag records
that the `return 0` inside the loop fired, hits is the uint8_t hit counter,
buf the buffer after the loop, and tested the list of bit indices passed to
test_bit_set_bit, in order. -/
structure LoopOut where
  early : Bool
  hits : Nat
  buf : List Nat
  tested : List Nat
deriving DecidableEq

/-- The `for (i = 0; i < bloom->hashes; i++)` loop of bloom_check_add,
over the precomputed list of bit indices. -/
def caLoop (add : Bool) : List Nat → List Nat → LoopOut
  | buf, [] => ⟨false, 0, buf, []⟩
  | buf, x :: rest =>
    let t := test_bit_set_bit buf x add
    if t.1 = 1 then
      let q := caLoop add t.2 rest
      ⟨q.early, q.hits + 1, q.buf, x :: q.tested⟩
    else if add then
      let q := caLoop add t.2 rest
      ⟨q.early, q.hits, q.buf, x :: q.tested⟩
    else ⟨true, 0, t.2, [x]⟩

/-- The external 64-bit hash primitive XXH64(buffer, len, seed): an
arbitrary function of the data bytes and the seed.  The length argument is
implied by the data list. -/
def HashFn : Type := List Nat → Nat → Nat

/-- a = XXH64(buffer, len, 0x59f2815b16f81798), a uint64_t. -/
def hashA (h : HashFn) (data : List Nat) : Nat := h data SEED0 % U64

/-- b = XXH64(buffer, len, a), a uint64_t. -/
def hashB (h : HashFn) (data : List Nat) : Nat := h data (hashA h data) % U64

/-- The bit indices x = (a + b*i) % bloom->bits for i = 0 .. hashes-1,
with the sum and product wrapping at 2^64 as in C uint64_t arithmetic. -/
def bloomIdxList (f : Bloom) (a b : Nat) : List Nat :=
  (List.range f.hashes).map (fun i => ((a + b * i) % U64) % f.bits)

/-- Result of bloom_check_add: the returned int, the filter afterwards, and
the list of bit indices that were passed to test_bit_set_bit. -/
structure CAOut where
  res : Int
  flt : Bloom
  tested : List Nat
deriving DecidableEq

/-- Embedding of bloom_check_add: -1 if the filter is not ready (no bit
access); otherwise run the double-hashing loop and return 1 exactly when
hits == hashes and the in-loop `return 0` did not fire. -/
def bloom_check_add (h : HashFn) (f : Bloom) (data : List Nat) (add : Bool) : CAOut :=
  if f.ready = false then ⟨-1, f, []⟩
  else
    let a := hashA h data
    let b := hashB h data
    let q := caLoop add f.bf (bloomIdxList f a b)
    let r : Int := if q.early then 0 else if q.hits = f.hashes then 1 else 0
    ⟨r, { f with bf := q.buf }, q.tested⟩

/-- Embedding of bloom_check = bloom_check_add with add = 0 (the C function
returns only the int). -/
def bloom_check (h : HashFn) (f : Bloom) (data : List Nat) : Int :=
  (bloom_check_add h f data false).res

/-- Embedding of bloom_add = bloom_check_add with add = 1, under the
per-filter mutex (no observable effect single-threadedly). -/
def bloom_add (h : HashFn) (f : Bloom) (data : List Nat) : CAOut :=
  bloom_check_add h f data true

/-- The filter state after bloom_add. -/
def addFlt (h : HashFn) (f : Bloom) (data : List Nat) : Bloom :=
  (bloom_add h f data).flt

/-- The data-model invariants of a ready filter (spec section 3): at least
one bit, the byte buffer covers all bits and has exactly `bytes` entries,
and the uint8_t hashes field is a positive count below 256. -/
def WF (f : Bloom) : Prop :=
  0 < f.bits ∧ f.bits ≤ 8 * f.bytes ∧ f.bf.length = f.bytes ∧
    0 < f.hashes ∧ f.hashes < 256

instance (f : Bloom) : Decidable (WF f) := by
  unfold WF; infer_instance

/-- memset(buf, 0, n) on a byte buffer: the first n entries become 0. -/
def memsetZero : List Nat → Nat → List Nat
  | l, 0 => l
  | [], _ + 1 => []
  | _ :: t, n + 1 => 0 :: memsetZero t n

/-- Embedding of bloom_reset: fail with 1 if not ready, else zero the first
`bytes` bytes of the buffer in place and return 0. -/
def bloom_reset (f : Bloom) : Int × Bloom :=
  if f.ready = false then (1, f)
  else (0, { f with bf := memsetZero f.bf f.bytes })

/-- The scalar metadata record of a filter: every field of `struct bloom`
except the bf pointer (whose saved value is meaningless and is overwritten
on load). -/
structure BloomMeta where
  entries : Nat
  error : ℚ
  bpe : ℚ
  bits : Nat
  bytes : Nat
  hashes : Nat
  ready : Bool
  major : Nat
  minor : Nat
deriving DecidableEq

/-- The metadata record of a filter, as written by fwrite(bloom, ...). -/
def metaOf (f : Bloom) : BloomMeta :=
  ⟨f.entries, f.error, f.bpe, f.bits, f.bytes, f.hashes, f.ready, f.major, f.minor⟩

/-- Rebuild a struct from a metadata record and a buffer, as after
fread(bloom, ...) followed by assigning bloom->bf. -/
def bloomOfMeta (m : BloomMeta) (buf : List Nat) : Bloom :=
  ⟨m.entries, m.error, m.bpe, m.bits, m.bytes, m.hashes, buf, m.ready, m.major, m.minor⟩

/-- Outcome of fread/read of sizeof(struct bloom) bytes into the struct:
either the read transfers fewer bytes than requested, leaving the struct
holding an environment-determined value `p` (the bytes that were copied over
whatever was there), or it transfers all of them, yielding the record `m`. -/
inductive MetaRead where
  | sub (p : Bloom)
  | full (m : BloomMeta)
deriving DecidableEq

/-- Content of a single-file image as bloom_load consumes it: the bytes the
magic-read returns (fewer than 9 iff the file is shorter), the uint16 size
field if its two bytes are present, the struct-read outcome, and the bytes
available for the buffer read. -/
structure SavedFile where
  magic : List Nat
  sizeField : Option Nat
  meta : MetaRead
  buf : List Nat
deriving DecidableEq

/-- Embedding of bloom_save (portable branch).  sz is sizeof(struct bloom);
openOk models open() succeeding and w1-w4 the four write() calls
transferring their full byte counts.  On success the produced file image
carries the 9 magic bytes, the size field (a uint16, hence % 2^16), the
metadata record and the buffer bytes; any failure returns 1 with no
complete file. -/
def bloom_save (sz : Nat) (filename : List Nat) (openOk w1 w2 w3 w4 : Bool)
    (f : Bloom) : Int × Option SavedFile :=
  if filename = [] then (1, none)
  else if openOk = false then (1, none)
  else if w1 = false then (1, none)
  else if w2 = false then (1, none)
  else if w3 = false then (1, none)
  else if w4 = false then (1, none)
  else (0, some ⟨bloomMagic, some (sz % 65536), MetaRead.full (metaOf f), f.bf⟩)

/-- Embedding of bloom_load (portable branch).  sz is sizeof(struct bloom),
bloomNull models a NULL destination pointer, file is the opened file image
(none if open fails), allocOk the malloc outcome, prev the struct's content
on entry.  Checks run in source order with result codes 1..11; from code 3
on, the struct was first zeroed by memset, and every failure path from
code 4 on goes through load_error which clears ready. -/
def bloom_load (sz : Nat) (bloomNull : Bool) (filename : List Nat)
    (file : Option SavedFile) (allocOk : Bool) (prev : Bloom) : Int × Bloom :=
  if filename = [] then (1, prev)
  else if bloomNull then (2, prev)
  else
    match file with
    | none => (3, emptyBloom)
    | some fl =>
      if fl.magic.length ≠ bloomMagic.length then (4, emptyBloom)
      else if fl.magic ≠ bloomMagic then (5, emptyBloom)
      else
        match fl.sizeField with
        | none => (6, emptyBloom)
        | some s =>
          if s ≠ sz then (7, emptyBloom)
          else
            match fl.meta with
            | MetaRead.sub p => (8, { p with ready := false })
            | MetaRead.full m =>
              if m.major ≠ BLOOM_VERSION_MAJOR then
                (9, { bloomOfMeta m [] with ready := false })
              else if allocOk = false then
                (10, { bloomOfMeta m [] with ready := false })
              else if fl.buf.length < m.bytes then
                (11, { bloomOfMeta m [] with ready := false })
              else (0, bloomOfMeta m (fl.buf.take m.bytes))

/-- Embedding of bloom_savecustom: writes the raw struct to <name>.blm and
the buffer to <name>.dat.  openOk models both fopen calls succeeding, w1
and w2 the two fwrite calls transferring fully; a short fwrite calls
exit(0), recorded in the returned flag.  Result: (return value, exited,
produced file pair). -/
def bloom_savecustom (filename : List Nat) (openOk w1 w2 : Bool) (f : Bloom) :
    Int × Bool × Option (MetaRead × List Nat) :=
  if filename = [] then (1, false, none)
  else if openOk = false then (1, false, none)
  else if w1 = false then (1, true, none)
  else if w2 = false then (1, true, none)
  else (0, false, some (MetaRead.full (metaOf f), f.bf))

/-- Embedding of bloom_loadcustom: blm is the struct-read outcome from
<name>.blm (none if either fopen fails pairs with dat = none handling
below), dat the bytes of <name>.dat, allocOk the malloc outcome, prev the
struct's content on entry.  All failures return 1; only the malloc-failure
and short-buffer-read paths memset the struct back to zero. -/
def bloom_loadcustom (filename : List Nat) (blm : Option MetaRead)
    (dat : Option (List Nat)) (allocOk : Bool) (prev : Bloom) : Int × Bloom :=
  if filename = [] then (1, prev)
  else
    match blm, dat with
    | none, _ => (1, prev)
    | some _, none => (1, prev)
    | some (MetaRead.sub p), some _ => (1, p)
    | some (MetaRead.full m), some datBytes =>
      if allocOk = false then (1, emptyBloom)
      else if datBytes.length < m.bytes then (1, emptyBloom)
      else (0, bloomOfMeta m (datBytes.take m.bytes))

/-- The long double computations of bloom_init2 / bloom_dummy, supplied by
the floating-point environment: bpe is the computed
(-log(error)) / 0.480453013918201, allbits the uint64_t truncation of
(long double)entries * bpe, and hashesCeil the value of
ceil(0.693147180559945 * bpe) before the uint8_t cast. -/
structure DeriveOracle where
  bpe : Nat → ℚ → ℚ
  allbits : Nat → ℚ → Nat
  hashesCeil : Nat → ℚ → Nat

/-- Embedding of bloom_init2: memset the struct to zero, reject
entries < 1000 or error outside (0,1) with result 1, otherwise derive the
parameters (floating-point steps through the oracle, the byte count and the
uint8_t cast exactly), allocate (calloc modelled by allocOk and a zero
buffer), and mark ready with version 2.1. -/
def bloom_init2 (o : DeriveOracle) (allocOk : Bool) (entries : Nat) (error : ℚ) :
    Int × Bloom :=
  if entries < 1000 ∨ error ≤ 0 ∨ 1 ≤ error then (1, emptyBloom)
  else
    let bpe := o.bpe entries error
    let bits := o.allbits entries error
    let bytes := bits / 8 + (if bits % 8 = 0 then 0 else 1)
    let hashes := o.hashesCeil entries error % 256
    if allocOk = false then
      (1, ⟨entries, error, bpe, bits, bytes, hashes, [], false, 0, 0⟩)
    else
      (0, ⟨entries, error, bpe, bits, bytes, hashes, List.replicate bytes 0, true,
        BLOOM_VERSION_MAJOR, BLOOM_VERSION_MINOR⟩)

/-- Embedding of bloom_dummy: identical to bloom_init2 except that the
allocation and the ready/version assignments are commented out, so a valid
call returns 0 with no buffer and ready still false. -/
def bloom_dummy (o : DeriveOracle) (entries : Nat) (error : ℚ) : Int × Bloom :=
  if entries < 1000 ∨ error ≤ 0 ∨ 1 ≤ error then (1, emptyBloom)
  else
    let bpe := o.bpe entries error
    let bits := o.allbits entries error
    let bytes := bits / 8 + (if bits % 8 = 0 then 0 else 1)
    let hashes := o.hashesCeil entries error % 256
    (0, ⟨entries, error, bpe, bits, bytes, hashes, [], false, 0, 0⟩)

/-- The buffer after test_bit_set_bit in set mode. -/
def setBitBuf (buf : List Nat) (x : Nat) : List Nat :=
  (test_bit_set_bit buf x true).2

/-- A concrete hash function standing in for XXH64 in witnesses. -/
def hC : HashFn := fun d s => d.foldl (fun acc b => acc * 31 + b) s

/-- A concrete small well-formed ready filter for witnesses. -/
def F1 : Bloom := ⟨1000, 1/100, 12, 16, 2, 2, [0, 0], true, 2, 1⟩

/-- A hash function whose 64-bit outputs are the maximal uint64 value,
exhibiting the wrap-around of (a + b*i). -/
def hashBig : HashFn := fun _ _ => U64 - 1

/-- A concrete ready filter with 3 bits, for the indexing counterexample. -/
def F0 : Bloom := ⟨1000, 1/100, 10, 3, 1, 2, [0], true, 2, 1⟩

/-- A trivial floating-point oracle for witnesses. -/
def oracle0 : DeriveOracle := ⟨fun _ _ => 0, fun _ _ => 0, fun _ _ => 0⟩

/-! ### Byte-buffer and bit-addressing lemmas -/

theorem getD_set_self (l : List Nat) (i v : Nat) (h : i < l.length) :
    (l.set i v).getD i 0 = v := by
  induction l generalizing i with
  | nil => simp at h
  | cons a t ih =>
    cases i with
    | zero => simp [List.set]
    | succ j => simpa [List.set] using ih j (by simpa using h)

theorem getD_set_of_ne (l : List Nat) (i j v : Nat) (h : i ≠ j) :
    (l.set i v).getD j 0 = l.getD j 0 := by
  induction l generalizing i j with
  | nil => simp [List.set]
  | cons a t ih =>
    cases i with
    | zero =>
      cases j with
      | zero => exact absurd rfl h
      | succ k => simp [List.set]
    | succ i0 =>
      cases j with
      | zero => simp [List.set]
      | succ k => simpa [List.set] using ih i0 k (fun e => h (by simp [e]))

theorem mask_eq_two_pow (x : Nat) : (1 <<< (x % 8)) % 256 = 2 ^ (x % 8) := by
  have hlt : x % 8 < 8 := Nat.mod_lt x (by norm_num)
  rw [Nat.shiftLeft_eq, one_mul]
  exact Nat.mod_eq_of_lt (lt_of_lt_of_le (Nat.pow_lt_pow_right (by norm_num) hlt)
    (by norm_num))

theorem bitSet_iff_testBit (buf : List Nat) (x : Nat) :
    bitSet buf x ↔ (buf.getD (x >>> 3) 0).testBit (x % 8) := by
  unfold bitSet
  rw [mask_eq_two_pow, Nat.and_two_pow]
  cases h : (buf.getD (x >>> 3) 0).testBit (x % 8) <;>
    simp [h, (Nat.two_pow_pos (x % 8)).ne']

theorem shiftRight3_eq_div (x : Nat) : x >>> 3 = x / 8 := by
  rw [Nat.shiftRight_eq_div_pow]

theorem bit_eq_of_byte_and_pos (x y : Nat) (hb : x >>> 3 = y >>> 3)
    (hm : x % 8 = y % 8) : x = y := by
  rw [shiftRight3_eq_div, shiftRight3_eq_div] at hb
  omega

theorem set_oob (l : List Nat) (i v : Nat) (h : l.length ≤ i) : l.set i v = l := by
  induction l generalizing i with
  | nil => simp [List.set]
  | cons a t ih =>
    cases i with
    | zero => simp at h
    | succ j => simp [List.set, ih j (by simpa using h)]

theorem tbsb_one_of (buf : List Nat) (x : Nat) (s : Bool) (hb : bitSet buf x) :
    test_bit_set_bit buf x s = (1, buf) := by
  unfold test_bit_set_bit
  unfold bitSet at hb
  dsimp only
  rw [if_pos hb]

theorem tbsb_zero_false (buf : List Nat) (x : Nat) (hb : ¬ bitSet buf x) :
    test_bit_set_bit buf x false = (0, buf) := by
  unfold test_bit_set_bit
  unfold bitSet at hb
  simp at hb
  simp [hb]

theorem tbsb_zero_true (buf : List Nat) (x : Nat) (hb : ¬ bitSet buf x) :
    test_bit_set_bit buf x true =
      (0, buf.set (x >>> 3) (buf.getD (x >>> 3) 0 ||| (1 <<< (x % 8)) % 256)) := by
  unfold test_bit_set_bit
  unfold bitSet at hb
  simp at hb
  simp [hb]

theorem tbsb_len (buf : List Nat) (x : Nat) (s : Bool) :
    (test_bit_set_bit buf x s).2.length = buf.length := by
  by_cases hb : bitSet buf x
  · rw [tbsb_one_of buf x s hb]
  · cases s with
    | false => rw [tbsb_zero_false buf x hb]
    | true => rw [tbsb_zero_true buf x hb]; simp

theorem tbsb_mono (buf : List Nat) (x : Nat) (s : Bool) (y : Nat)
    (hy : bitSet buf y) : bitSet (test_bit_set_bit buf x s).2 y := by
  by_cases hb : bitSet buf x
  · rw [tbsb_one_of buf x s hb]; exact hy
  · cases s with
    | false => rw [tbsb_zero_false buf x hb]; exact hy
    | true =>
      rw [tbsb_zero_true buf x hb]
      by_cases hlen : x >>> 3 < buf.length
      · rw [bitSet_iff_testBit] at hy ⊢
        by_cases hbyte : x >>> 3 = y >>> 3
        · rw [← hbyte] at hy
          rw [← hbyte, getD_set_self _ _ _ hlen, mask_eq_two_pow,
            Nat.testBit_or, hy]
          simp
        · rw [getD_set_of_ne _ _ _ _ hbyte]
          exact hy
      · rw [set_oob _ _ _ (Nat.le_of_not_lt hlen)]
        exact hy

theorem tbsb_sets (buf : List Nat) (x : Nat) (hlen : x >>> 3 < buf.length) :
    bitSet (test_bit_set_bit buf x true).2 x := by
  by_cases hb : bitSet buf x
  · rw [tbsb_one_of buf x true hb]; exact hb
  · rw [tbsb_zero_true buf x hb, bitSet_iff_testBit,
      getD_set_self _ _ _ hlen, mask_eq_two_pow, Nat.testBit_or]
    simp

/-! ### Lemmas about the bloom_check_add loop -/

theorem caLoop_nil (a : Bool) (buf : List Nat) :
    caLoop a buf [] = ⟨false, 0, buf, []⟩ := rfl

theorem caLoop_cons_set (a : Bool) (buf : List Nat) (x : Nat) (rest : List Nat)
    (hb : bitSet buf x) :
    caLoop a buf (x :: rest) =
      ⟨(caLoop a buf rest).early, (caLoop a buf rest).hits + 1,
        (caLoop a buf rest).buf, x :: (caLoop a buf rest).tested⟩ := by
  simp only [caLoop, tbsb_one_of buf x a hb]
  simp

theorem caLoop_cons_unset_add (buf : List Nat) (x : Nat) (rest : List Nat)
    (hb : ¬ bitSet buf x) :
    caLoop true buf (x :: rest) =
      ⟨(caLoop true (setBitBuf buf x) rest).early,
        (caLoop true (setBitBuf buf x) rest).hits,
        (caLoop true (setBitBuf buf x) rest).buf,
        x :: (caLoop true (setBitBuf buf x) rest).tested⟩ := by
  have h1 : (test_bit_set_bit buf x true).1 = 0 := by
    rw [tbsb_zero_true buf x hb]
  simp only [caLoop, h1, setBitBuf]
  norm_num

theorem caLoop_cons_unset_check (buf : List Nat) (x : Nat) (rest : List Nat)
    (hb : ¬ bitSet buf x) :
    caLoop false buf (x :: rest) = ⟨true, 0, buf, [x]⟩ := by
  have h1 : (test_bit_set_bit buf x false).1 = 0 := by
    rw [tbsb_zero_false buf x hb]
  have h2 : (test_bit_set_bit buf x false).2 = buf := by
    rw [tbsb_zero_false buf x hb]
  simp only [caLoop, h1, h2]
  norm_num

theorem caLoop_mono (a : Bool) (l : List Nat) (buf : List Nat) (y : Nat)
    (hy : bitSet buf y) : bitSet (caLoop a buf l).buf y := by
  induction l generalizing buf with
  | nil => exact hy
  | cons x rest ih =>
    by_cases hb : bitSet buf x
    · rw [caLoop_cons_set a buf x rest hb]
      exact ih buf hy
    · cases a with
      | true =>
        rw [caLoop_cons_unset_add buf x rest hb]
        exact ih (setBitBuf buf x) (tbsb_mono buf x true y hy)
      | false =>
        rw [caLoop_cons_unset_check buf x rest hb]
        exact hy

theorem caLoop_len (a : Bool) (l : List Nat) (buf : List Nat) :
    (caLoop a buf l).buf.length = buf.length := by
  induction l generalizing buf with
  | nil => rfl
  | cons x rest ih =>
    by_cases hb : bitSet buf x
    · rw [caLoop_cons_set a buf x rest hb]
      exact ih buf
    · cases a with
      | true =>
        rw [caLoop_cons_unset_add buf x rest hb]
        rw [ih (setBitBuf buf x)]
        exact tbsb_len buf x true
      | false =>
        rw [caLoop_cons_unset_check buf x rest hb]

theorem caLoop_check_buf (l : List Nat) (buf : List Nat) :
    (caLoop false buf l).buf = buf := by
  induction l generalizing buf with
  | nil => rfl
  | cons x rest ih =>
    by_cases hb : bitSet buf x
    · rw [caLoop_cons_set false buf x rest hb]
      exact ih buf
    · rw [caLoop_cons_unset_check buf x rest hb]

theorem caLoop_check_all (l : List Nat) (buf : List Nat)
    (h : ∀ x ∈ l, bitSet buf x) :
    caLoop false buf l = ⟨false, l.length, buf, l⟩ := by
  induction l with
  | nil => rfl
  | cons x rest ih =>
    have hb : bitSet buf x := h x (by simp)
    rw [caLoop_cons_set false buf x rest hb,
      ih (fun z hz => h z (by simp [hz]))]
    simp

theorem caLoop_check_ex (l : List Nat) (buf : List Nat)
    (h : ¬ ∀ x ∈ l, bitSet buf x) :
    ∃ k, k < l.length ∧ ¬ bitSet buf (l.getD k 0) ∧
      (∀ j, j < k → bitSet buf (l.getD j 0)) ∧
      caLoop false buf l = ⟨true, k, buf, l.take (k + 1)⟩ := by
  induction l with
  | nil => exact absurd (by simp) h
  | cons x rest ih =>
    by_cases hb : bitSet buf x
    · have hrest : ¬ ∀ z ∈ rest, bitSet buf z := by
        intro hall
        exact h (by
          intro z hz
          rcases List.mem_cons.mp hz with hz | hz
          · exact hz ▸ hb
          · exact hall z hz)
      obtain ⟨k, hk, hnb, hall, heq⟩ := ih hrest
      refine ⟨k + 1, by simpa using hk, by simpa using hnb, ?_, ?_⟩
      · intro j hj
        cases j with
        | zero => simpa using hb
        | succ j0 => simpa using hall j0 (by omega)
      · rw [caLoop_cons_set false buf x rest hb, heq]
        simp
    · refine ⟨0, by simp, by simpa using hb, by simp, ?_⟩
      rw [caLoop_cons_unset_check buf x rest hb]
      simp

theorem caLoop_add_noearly (l : List Nat) (buf : List Nat) :
    (caLoop true buf l).early = false := by
  induction l generalizing buf with
  | nil => rfl
  | cons x rest ih =>
    by_cases hb : bitSet buf x
    · rw [caLoop_cons_set true buf x rest hb]; exact ih buf
    · rw [caLoop_cons_unset_add buf x rest hb]; exact ih (setBitBuf buf x)

theorem caLoop_add_tested (l : List Nat) (buf : List Nat) :
    (caLoop true buf l).tested = l := by
  induction l generalizing buf with
  | nil => rfl
  | cons x rest ih =>
    by_cases hb : bitSet buf x
    · rw [caLoop_cons_set true buf x rest hb]
      simp [ih buf]
    · rw [caLoop_cons_unset_add buf x rest hb]
      simp [ih (setBitBuf buf x)]

theorem caLoop_add_hits_le (l : List Nat) (buf : List Nat) :
    (caLoop true buf l).hits ≤ l.length := by
  induction l generalizing buf with
  | nil => simp [caLoop_nil]
  | cons x rest ih =>
    by_cases hb : bitSet buf x
    · rw [caLoop_cons_set true buf x rest hb]
      simpa using ih buf
    · rw [caLoop_cons_unset_add buf x rest hb]
      have := ih (setBitBuf buf x)
      simp
      omega

theorem caLoop_add_hits_iff (l : List Nat) (buf : List Nat) :
    (caLoop true buf l).hits = l.length ↔ ∀ x ∈ l, bitSet buf x := by
  induction l generalizing buf with
  | nil => simp [caLoop_nil]
  | cons x rest ih =>
    by_cases hb : bitSet buf x
    · rw [caLoop_cons_set true buf x rest hb]
      simp only [List.length_cons, Nat.add_right_cancel_iff, ih buf]
      constructor
      · intro hall z hz
        rcases List.mem_cons.mp hz with hz | hz
        · exact hz ▸ hb
        · exact hall z hz
      · intro hall z hz
        exact hall z (by simp [hz])
    · rw [caLoop_cons_unset_add buf x rest hb]
      have hle := caLoop_add_hits_le rest (setBitBuf buf x)
      constructor
      · intro heq
        simp at heq
        omega
      · intro hall
        exact absurd (hall x (by simp)) hb

theorem caLoop_add_sets (l : List Nat) (buf : List Nat)
    (hlen : ∀ x ∈ l, x >>> 3 < buf.length) :
    ∀ x ∈ l, bitSet (caLoop true buf l).buf x := by
  induction l generalizing buf with
  | nil => simp
  | cons x rest ih =>
    intro z hz
    by_cases hb : bitSet buf x
    · rw [caLoop_cons_set true buf x rest hb]
      rcases List.mem_cons.mp hz with hz | hz
    -- z = x: the bit was already set and stays set; z in rest: induction
      · exact hz ▸ caLoop_mono true rest buf x hb
      · exact ih buf (fun w hw => hlen w (by simp [hw])) z hz
    · rw [caLoop_cons_unset_add buf x rest hb]
      rcases List.mem_cons.mp hz with hz | hz
      · refine hz ▸ caLoop_mono true rest (setBitBuf buf x) x ?_
        exact tbsb_sets buf x (hlen x (by simp))
      · refine ih (setBitBuf buf x) ?_ z hz
        intro w hw
        rw [setBitBuf, tbsb_len]
        exact hlen w (by simp [hw])

/-! ### Semantics of bloom_check_add, bloom_check, bloom_add -/

theorem bca_unready (h : HashFn) (f : Bloom) (data : List Nat) (a' : Bool)
    (hr : f.ready = false) : bloom_check_add h f data a' = ⟨-1, f, []⟩ := by
  simp [bloom_check_add, hr]

theorem bca_ready (h : HashFn) (f : Bloom) (data : List Nat) (a' : Bool)
    (hr : f.ready = true) :
    bloom_check_add h f data a' =
      ⟨if (caLoop a' f.bf (bloomIdxList f (hashA h data) (hashB h data))).early then 0
          else if (caLoop a' f.bf (bloomIdxList f (hashA h data) (hashB h data))).hits
              = f.hashes then 1 else 0,
        { f with bf := (caLoop a' f.bf (bloomIdxList f (hashA h data) (hashB h data))).buf },
        (caLoop a' f.bf (bloomIdxList f (hashA h data) (hashB h data))).tested⟩ := by
  simp [bloom_check_add, hr]

theorem bloomIdxList_length (f : Bloom) (a b : Nat) :
    (bloomIdxList f a b).length = f.hashes := by
  simp [bloomIdxList]

theorem bloomIdxList_congr (f g : Bloom) (a b : Nat) (h1 : g.bits = f.bits)
    (h2 : g.hashes = f.hashes) : bloomIdxList g a b = bloomIdxList f a b := by
  simp [bloomIdxList, h1, h2]

theorem bloomIdxList_byte_lt (f : Bloom) (a b : Nat) (hwf : WF f) :
    ∀ x ∈ bloomIdxList f a b, x >>> 3 < f.bf.length := by
  intro x hx
  obtain ⟨hbits, hle, hlen, _, _⟩ := hwf
  simp only [bloomIdxList, List.mem_map] at hx
  obtain ⟨i, _, hi⟩ := hx
  have hxb : x < f.bits := hi ▸ Nat.mod_lt _ hbits
  rw [shiftRight3_eq_div, hlen]
  have : x < f.bytes * 8 := by omega
  exact Nat.div_lt_of_lt_mul (by omega)

theorem bloom_check_eq_one (h : HashFn) (f : Bloom) (data : List Nat)
    (hr : f.ready = true)
    (hall : ∀ x ∈ bloomIdxList f (hashA h data) (hashB h data), bitSet f.bf x) :
    bloom_check h f data = 1 := by
  unfold bloom_check
  rw [bca_ready h f data false hr,
    caLoop_check_all (bloomIdxList f (hashA h data) (hashB h data)) f.bf hall]
  simp [bloomIdxList_length]

theorem bloom_check_eq_zero (h : HashFn) (f : Bloom) (data : List Nat)
    (hr : f.ready = true)
    (hex : ¬ ∀ x ∈ bloomIdxList f (hashA h data) (hashB h data), bitSet f.bf x) :
    bloom_check h f data = 0 := by
  unfold bloom_check
  obtain ⟨k, _, _, _, heq⟩ :=
    caLoop_check_ex (bloomIdxList f (hashA h data) (hashB h data)) f.bf hex
  rw [bca_ready h f data false hr, heq]
  simp

theorem addFlt_fields (h : HashFn) (f : Bloom) (d : List Nat) :
    (addFlt h f d).bits = f.bits ∧ (addFlt h f d).hashes = f.hashes ∧
      (addFlt h f d).ready = f.ready ∧ (addFlt h f d).bytes = f.bytes ∧
      (addFlt h f d).bf.length = f.bf.length := by
  unfold addFlt bloom_add
  cases hr : f.ready with
  | false => rw [bca_unready h f d true hr]; exact ⟨rfl, rfl, hr, rfl, rfl⟩
  | true => rw [bca_ready h f d true hr]; simp [hr, caLoop_len]

theorem addFlt_mono (h : HashFn) (f : Bloom) (d : List Nat) (y : Nat)
    (hy : bitSet f.bf y) : bitSet (addFlt h f d).bf y := by
  unfold addFlt bloom_add
  cases hr : f.ready with
  | false => rw [bca_unready h f d true hr]; exact hy
  | true => rw [bca_ready h f d true hr]; exact caLoop_mono true _ f.bf y hy

theorem addFlt_sets (h : HashFn) (f : Bloom) (d : List Nat) (hwf : WF f)
    (hr : f.ready = true) :
    ∀ x ∈ bloomIdxList f (hashA h d) (hashB h d), bitSet (addFlt h f d).bf x := by
  unfold addFlt bloom_add
  rw [bca_ready h f d true hr]
  exact caLoop_add_sets _ f.bf (bloomIdxList_byte_lt f _ _ hwf)

/-- C1: no false negatives.  For every ready well-formed filter and every
byte sequence X, after bloom_add(X) and then any further sequence of
bloom_add calls (on arbitrary elements), bloom_check(X) returns 1. -/
theorem bloom_no_false_negatives (h : HashFn) (f : Bloom) (X : List Nat)
    (ys : List (List Nat)) (hwf : WF f) (hr : f.ready = true) :
    bloom_check h (ys.foldl (addFlt h) (addFlt h f X)) X = 1 := by
  set aX := hashA h X with haX
  set bX := hashB h X with hbX
  have step : ∀ (g : Bloom) (d : List Nat),
      (g.bits = f.bits ∧ g.hashes = f.hashes ∧ g.ready = true ∧
        ∀ x ∈ bloomIdxList f aX bX, bitSet g.bf x) →
      ((addFlt h g d).bits = f.bits ∧ (addFlt h g d).hashes = f.hashes ∧
        (addFlt h g d).ready = true ∧
        ∀ x ∈ bloomIdxList f aX bX, bitSet (addFlt h g d).bf x) := by
    intro g d ⟨h1, h2, h3, h4⟩
    obtain ⟨g1, g2, g3, _, _⟩ := addFlt_fields h g d
    exact ⟨g1.trans h1, g2.trans h2, g3.trans h3,
      fun x hx => addFlt_mono h g d x (h4 x hx)⟩
  have fold : ∀ (zs : List (List Nat)) (g : Bloom),
      (g.bits = f.bits ∧ g.hashes = f.hashes ∧ g.ready = true ∧
        ∀ x ∈ bloomIdxList f aX bX, bitSet g.bf x) →
      ((zs.foldl (addFlt h) g).bits = f.bits ∧
        (zs.foldl (addFlt h) g).hashes = f.hashes ∧
        (zs.foldl (addFlt h) g).ready = true ∧
        ∀ x ∈ bloomIdxList f aX bX, bitSet (zs.foldl (addFlt h) g).bf x) := by
    intro zs
    induction zs with
    | nil => intro g hg; exact hg
    | cons d rest ih => intro g hg; exact ih _ (step g d hg)
  obtain ⟨q1, q2, q3, _, _⟩ := addFlt_fields h f X
  have base : (addFlt h f X).bits = f.bits ∧ (addFlt h f X).hashes = f.hashes ∧
      (addFlt h f X).ready = true ∧
      ∀ x ∈ bloomIdxList f aX bX, bitSet (addFlt h f X).bf x :=
    ⟨q1, q2, q3.trans hr, addFlt_sets h f X hwf hr⟩
  obtain ⟨r1, r2, r3, r4⟩ := fold ys (addFlt h f X) base
  refine bloom_check_eq_one h _ X r3 ?_
  rw [bloomIdxList_congr f _ aX bX r1 r2]
  exact r4

/-- C1 witness: a concrete insert of X into a small ready filter, followed
by two further inserts, still reports X present. -/
theorem bloom_no_false_negatives_witness :
    bloom_check hC (([[1], [2]] : List (List Nat)).foldl (addFlt hC)
      (addFlt hC F1 [104, 105])) [104, 105] = 1 :=
  bloom_no_false_negatives hC F1 [104, 105] [[1], [2]] (by decide) rfl

/-- C2: query semantics.  On a ready well-formed filter, bloom_check (=
bloom_check_add with add=0) leaves the filter untouched, returns 1 iff all
hashRounds indexed bits are set, returns only 0 or 1, and on a miss stops
at the first unset bit: the tested indices are exactly the indices up to
and including the first unset one.  On an unready filter it returns -1
having accessed no bit. -/
theorem bloom_check_query_semantics (h : HashFn) (f : Bloom) (data : List Nat)
    (hwf : WF f) :
    (f.ready = false → bloom_check_add h f data false = ⟨-1, f, []⟩) ∧
    (f.ready = true →
      (bloom_check_add h f data false).flt = f ∧
      bloom_check h f data = (bloom_check_add h f data false).res ∧
      ((bloom_check_add h f data false).res = 1 ↔
        ∀ x ∈ bloomIdxList f (hashA h data) (hashB h data), bitSet f.bf x) ∧
      ((bloom_check_add h f data false).res = 0 ∨
        (bloom_check_add h f data false).res = 1) ∧
      ((bloom_check_add h f data false).res = 0 →
        ∃ k, k < f.hashes ∧
          ¬ bitSet f.bf ((bloomIdxList f (hashA h data) (hashB h data)).getD k 0) ∧
          (∀ j, j < k →
            bitSet f.bf ((bloomIdxList f (hashA h data) (hashB h data)).getD j 0)) ∧
          (bloom_check_add h f data false).tested =
            (bloomIdxList f (hashA h data) (hashB h data)).take (k + 1))) := by
  refine ⟨fun hr => bca_unready h f data false hr, fun hr => ?_⟩
  by_cases hall : ∀ x ∈ bloomIdxList f (hashA h data) (hashB h data), bitSet f.bf x
  · have hout : bloom_check_add h f data false =
        ⟨1, f, bloomIdxList f (hashA h data) (hashB h data)⟩ := by
      rw [bca_ready h f data false hr, caLoop_check_all _ f.bf hall]
      simp [bloomIdxList_length]
    rw [hout]
    refine ⟨rfl, by simp [bloom_check, hout], by simpa using hall, Or.inr rfl, ?_⟩
    intro h0
    exact absurd h0 (by simp)
  · obtain ⟨k, hk, hnb, hprev, heq⟩ :=
      caLoop_check_ex (bloomIdxList f (hashA h data) (hashB h data)) f.bf hall
    have hout : bloom_check_add h f data false =
        ⟨0, f, (bloomIdxList f (hashA h data) (hashB h data)).take (k + 1)⟩ := by
      rw [bca_ready h f data false hr, heq]
      simp
    rw [hout]
    refine ⟨rfl, by simp [bloom_check, hout], by simpa using hall, Or.inl rfl, ?_⟩
    intro _
    exact ⟨k, by rw [← bloomIdxList_length f (hashA h data) (hashB h data)]; exact hk,
      hnb, hprev, rfl⟩

/-- C2 witness: at a concrete filter and element, bloom_check leaves the
filter unchanged. -/
theorem bloom_check_query_semantics_witness :
    (bloom_check_add hC F1 [5] false).flt = F1 :=
  ((bloom_check_query_semantics hC F1 [5] (by decide)).2 rfl).1

/-- C3: insert semantics.  On a ready well-formed filter, bloom_add tests
and sets all hashRounds indexed bits (the tested list is the full index
list), after the call every indexed bit is set, the result is 1 iff all
indexed bits were already set before the call, and the result is 0 or 1. -/
theorem bloom_add_insert_semantics (h : HashFn) (f : Bloom) (data : List Nat)
    (hwf : WF f) (hr : f.ready = true) :
    (bloom_add h f data).tested = bloomIdxList f (hashA h data) (hashB h data) ∧
    (∀ x ∈ bloomIdxList f (hashA h data) (hashB h data),
      bitSet (bloom_add h f data).flt.bf x) ∧
    ((bloom_add h f data).res = 1 ↔
      ∀ x ∈ bloomIdxList f (hashA h data) (hashB h data), bitSet f.bf x) ∧
    ((bloom_add h f data).res = 0 ∨ (bloom_add h f data).res = 1) := by
  have hout := bca_ready h f data true hr
  have hno := caLoop_add_noearly (bloomIdxList f (hashA h data) (hashB h data)) f.bf
  refine ⟨?_, ?_, ?_, ?_⟩
  · rw [bloom_add, hout]
    exact caLoop_add_tested _ f.bf
  · rw [bloom_add, hout]
    exact caLoop_add_sets _ f.bf (bloomIdxList_byte_lt f _ _ hwf)
  · rw [bloom_add, hout]
    simp only [hno, Bool.false_eq_true, if_false]
    by_cases hh : (caLoop true f.bf (bloomIdxList f (hashA h data) (hashB h data))).hits
        = f.hashes
    · have hall := (caLoop_add_hits_iff
        (bloomIdxList f (hashA h data) (hashB h data)) f.bf).mp
        (by rw [hh, bloomIdxList_length])
      rw [if_pos hh]
      exact ⟨fun _ => hall, fun _ => rfl⟩
    · have hnall : ¬ ∀ x ∈ bloomIdxList f (hashA h data) (hashB h data),
          bitSet f.bf x := by
        intro hall
        exact hh (by
          rw [(caLoop_add_hits_iff _ f.bf).mpr hall, bloomIdxList_length])
      rw [if_neg hh]
      exact ⟨fun h01 => absurd h01 (by norm_num), fun hall2 => absurd hall2 hnall⟩
  · rw [bloom_add, hout]
    simp only [hno, Bool.false_eq_true, if_false]
    by_cases hh : (caLoop true f.bf (bloomIdxList f (hashA h data) (hashB h data))).hits
        = f.hashes
    · exact Or.inr (by rw [if_pos hh])
    · exact Or.inl (by rw [if_neg hh])

/-- C3 witness: at a concrete filter and element, bloom_add tests exactly
the double-hashing index list. -/
theorem bloom_add_insert_semantics_witness :
    (bloom_add hC F1 [5]).tested = bloomIdxList F1 (hashA hC [5]) (hashB hC [5]) :=
  (bloom_add_insert_semantics hC F1 [5] (by decide) rfl).1

theorem tbsb_res_iff (buf : List Nat) (x : Nat) (s : Bool) :
    (test_bit_set_bit buf x s).1 = 1 ↔ bitSet buf x := by
  by_cases hb : bitSet buf x
  · rw [tbsb_one_of buf x s hb]
    simp [hb]
  · cases s with
    | false => rw [tbsb_zero_false buf x hb]; simp [hb]
    | true => rw [tbsb_zero_true buf x hb]; simp [hb]

/-- C4 counterexample: with both 64-bit hash values equal to 2^64 - 1 and a
filter of 3 bits, the second bit index actually computed by bloom_add is 2,
while (a + b*1) mod bitCount over the unbounded integers is 0: the claim's
indexing formula without the uint64 wrap does not match the code. -/
theorem bloom_index_math_counterexample :
    (bloom_add hashBig F0 []).tested.getD 1 0 ≠
      (hashA hashBig [] + hashB hashBig [] * 1) % F0.bits := by decide

/-- C4 amended: both query and insert derive their bit indices as
x = ((a + b*i) mod 2^64) mod bitCount with a = hash64(data, seed
0x59f2815b16f81798) and b = hash64(data, a), the insert path testing all of
them in order and the query path a prefix of them; a bit index x is
addressed at byte x >> 3 = x / 8, bit x mod 8, with bit 0 the
least-significant (testBit) position. -/
theorem bloom_indexing_scheme (h : HashFn) (f : Bloom) (data : List Nat)
    (hwf : WF f) (hr : f.ready = true) :
    (bloom_add h f data).tested =
      (List.range f.hashes).map
        (fun i => ((hashA h data + hashB h data * i) % U64) % f.bits) ∧
    (∃ n, (bloom_check_add h f data false).tested =
      ((List.range f.hashes).map
        (fun i => ((hashA h data + hashB h data * i) % U64) % f.bits)).take n) ∧
    (∀ buf x s, ((test_bit_set_bit buf x s).1 = 1 ↔
      (buf.getD (x / 8) 0).testBit (x % 8))) ∧
    (∀ x : Nat, x >>> 3 = x / 8) := by
  refine ⟨?_, ?_, ?_, shiftRight3_eq_div⟩
  · rw [bloom_add, bca_ready h f data true hr]
    exact caLoop_add_tested _ f.bf
  · by_cases hall : ∀ x ∈ bloomIdxList f (hashA h data) (hashB h data), bitSet f.bf x
    · refine ⟨f.hashes, ?_⟩
      rw [bca_ready h f data false hr, caLoop_check_all _ f.bf hall]
      show bloomIdxList f (hashA h data) (hashB h data) =
        (bloomIdxList f (hashA h data) (hashB h data)).take f.hashes
      rw [List.take_of_length_le (le_of_eq (bloomIdxList_length f _ _))]
    · obtain ⟨k, _, _, _, heq⟩ :=
        caLoop_check_ex (bloomIdxList f (hashA h data) (hashB h data)) f.bf hall
      refine ⟨k + 1, ?_⟩
      rw [bca_ready h f data false hr, heq]
      show (bloomIdxList f (hashA h data) (hashB h data)).take (k + 1) =
        (bloomIdxList f (hashA h data) (hashB h data)).take (k + 1)
      rfl
  · intro buf x s
    rw [tbsb_res_iff buf x s, bitSet_iff_testBit, shiftRight3_eq_div]

/-- C4 witness: the amended indexing scheme at a concrete filter, hash
function and element. -/
theorem bloom_indexing_scheme_witness :
    (bloom_add hC F1 [7]).tested =
      (List.range F1.hashes).map
        (fun i => ((hashA hC [7] + hashB hC [7] * i) % U64) % F1.bits) :=
  (bloom_indexing_scheme hC F1 [7] (by decide) rfl).1

theorem memsetZero_eq_replicate (l : List Nat) (n : Nat) (h : l.length = n) :
    memsetZero l n = List.replicate n 0 := by
  induction l generalizing n with
  | nil => rw [← h]; rfl
  | cons a t ih =>
    cases n with
    | zero => simp at h
    | succ m =>
      show 0 :: memsetZero t m = List.replicate (m + 1) 0
      rw [ih m (by simpa using h), List.replicate_succ]

theorem getD_replicate_zero (n i : Nat) : (List.replicate n (0 : Nat)).getD i 0 = 0 := by
  induction n generalizing i with
  | zero => simp
  | succ m ih =>
    cases i with
    | zero => rfl
    | succ j => simpa [List.replicate_succ] using ih j

theorem replicate_no_bit (n x : Nat) : ¬ bitSet (List.replicate n 0) x := by
  unfold bitSet
  rw [getD_replicate_zero]
  simp

/-- C10: reset semantics.  On a ready well-formed filter, bloom_reset
returns 0 and replaces the buffer by all-zero bytes (all other fields are
unchanged, as the record update shows), after which bloom_check of any
element under any hash function returns 0; on an unready filter it returns
1 with the filter untouched. -/
theorem bloom_reset_semantics (f : Bloom) (hwf : WF f) :
    (f.ready = false → bloom_reset f = (1, f)) ∧
    (f.ready = true →
      bloom_reset f = (0, { f with bf := List.replicate f.bytes 0 }) ∧
      ∀ (h : HashFn) (data : List Nat), bloom_check h (bloom_reset f).2 data = 0) := by
  obtain ⟨hbits, hle, hlen, hhash, hlt⟩ := hwf
  constructor
  · intro hr; simp [bloom_reset, hr]
  · intro hr
    have hres : bloom_reset f = (0, { f with bf := List.replicate f.bytes 0 }) := by
      simp [bloom_reset, hr, memsetZero_eq_replicate f.bf f.bytes hlen]
    refine ⟨hres, ?_⟩
    intro h data
    rw [hres]
    refine bloom_check_eq_zero h _ data hr ?_
    intro hall
    have hlen2 : (bloomIdxList { f with bf := List.replicate f.bytes 0 }
        (hashA h data) (hashB h data)).length = f.hashes :=
      bloomIdxList_length _ _ _
    have hne : bloomIdxList { f with bf := List.replicate f.bytes 0 }
        (hashA h data) (hashB h data) ≠ [] := by
      intro he
      rw [he] at hlen2
      simp at hlen2
      omega
    obtain ⟨x, hx⟩ := List.exists_mem_of_ne_nil _ hne
    exact absurd (hall x hx) (replicate_no_bit f.bytes x)

/-- C10 witness: resetting a concrete ready filter zeroes its buffer and
returns 0. -/
theorem bloom_reset_semantics_witness :
    bloom_reset F1 = (0, { F1 with bf := List.replicate F1.bytes 0 }) :=
  ((bloom_reset_semantics F1 (by decide)).2 rfl).1

/-- C9: construction rejection.  For entries < 1000 or errorRate outside
the open interval (0,1), bloom_init2 and bloom_dummy return the non-zero
code 1, and the structure is exactly the memset-zero struct: unready, no
buffer, all fields zero. -/
theorem bloom_init2_rejects (o : DeriveOracle) (ok : Bool) (entries : Nat)
    (error : ℚ) (hbad : entries < 1000 ∨ error ≤ 0 ∨ 1 ≤ error) :
    bloom_init2 o ok entries error = (1, emptyBloom) ∧
    bloom_dummy o entries error = (1, emptyBloom) ∧
    emptyBloom.ready = false ∧ emptyBloom.bf = [] ∧
    emptyBloom = ⟨0, 0, 0, 0, 0, 0, [], false, 0, 0⟩ := by
  refine ⟨?_, ?_, rfl, rfl, rfl⟩
  · rw [bloom_init2, if_pos hbad]
  · rw [bloom_dummy, if_pos hbad]

/-- C9 witness: entries = 999 is rejected with a zeroed unready struct. -/
theorem bloom_init2_rejects_witness :
    bloom_init2 oracle0 true 999 (1/2) = (1, emptyBloom) :=
  (bloom_init2_rejects oracle0 true 999 (1/2) (Or.inl (by norm_num))).1

/-- C6: save/load round-trip.  For every ready well-formed filter whose
major version matches the implementation (as every constructed filter has),
saving with the single-file format and loading the produced image, or
saving with the two-file format and loading the produced pair, succeeds and
reproduces the filter exactly — all scalar fields and the bit buffer — so
every query gives the same answer afterwards. -/
theorem bloom_save_load_roundtrip (sz : Nat) (fn : List Nat) (f : Bloom)
    (hsz : sz % 65536 = sz) (hfn : fn ≠ []) (hwf : WF f) (hr : f.ready = true)
    (hm : f.major = BLOOM_VERSION_MAJOR) :
    (bloom_save sz fn true true true true true f =
      (0, some ⟨bloomMagic, some (sz % 65536), MetaRead.full (metaOf f), f.bf⟩) ∧
      bloom_load sz false fn
        (some ⟨bloomMagic, some (sz % 65536), MetaRead.full (metaOf f), f.bf⟩)
        true emptyBloom = (0, f) ∧
      ∀ (h : HashFn) (d : List Nat),
        bloom_check h (bloom_load sz false fn
          (some ⟨bloomMagic, some (sz % 65536), MetaRead.full (metaOf f), f.bf⟩)
          true emptyBloom).2 d = bloom_check h f d) ∧
    (bloom_savecustom fn true true true f =
      (0, false, some (MetaRead.full (metaOf f), f.bf)) ∧
      bloom_loadcustom fn (some (MetaRead.full (metaOf f))) (some f.bf) true
        emptyBloom = (0, f) ∧
      ∀ (h : HashFn) (d : List Nat),
        bloom_check h (bloom_loadcustom fn (some (MetaRead.full (metaOf f)))
          (some f.bf) true emptyBloom).2 d = bloom_check h f d) := by
  obtain ⟨hbits, hle, hlen, hhash, hlt⟩ := hwf
  have htake : f.bf.take f.bytes = f.bf := by
    rw [← hlen]
    exact List.take_length f.bf
  have hback : bloomOfMeta (metaOf f) (f.bf.take f.bytes) = f := by
    rw [htake]
    rfl
  have hload : bloom_load sz false fn
      (some ⟨bloomMagic, some (sz % 65536), MetaRead.full (metaOf f), f.bf⟩)
      true emptyBloom = (0, f) := by
    simp only [bloom_load, if_neg hfn]
    rw [hsz]
    simp [metaOf, hm, BLOOM_VERSION_MAJOR, hlen]
    rw [htake]
    rw [show (2 : Nat) = f.major from by rw [hm]; rfl]
    rfl
  have hloadc : bloom_loadcustom fn (some (MetaRead.full (metaOf f)))
      (some f.bf) true emptyBloom = (0, f) := by
    simp only [bloom_loadcustom, if_neg hfn]
    simp [metaOf, hlen]
    rw [htake]
    rfl
  refine ⟨⟨?_, hload, ?_⟩, ?_, hloadc, ?_⟩
  · simp [bloom_save, hfn]
  · intro h d; rw [hload]
  · simp [bloom_savecustom, hfn]
  · intro h d; rw [hloadc]

/-- C6 witness: the two-file round-trip at a concrete filter returns the
very same filter. -/
theorem bloom_save_load_roundtrip_witness :
    bloom_loadcustom [97] (some (MetaRead.full (metaOf F1))) (some F1.bf) true
      emptyBloom = (0, F1) :=
  ((bloom_save_load_roundtrip 80 [97] F1 (by norm_num) (by simp) (by decide)
    rfl rfl).2).2.1

/-- C7 counterexample: bloom_load with an empty filename fails with code 1
but returns before touching the struct, so a previously ready filter is
still ready on return — the claim that ready is false after every failure
is falsified at this input. -/
theorem bloom_load_ready_counterexample :
    (bloom_load 80 false [] none true F1).1 = 1 ∧
    (bloom_load 80 false [] none true F1).2.ready = true := by decide

/-- C7 amended: bloom_load performs the eleven checks in source order and
returns the distinct code 1..11 for the first one that fails (0 when all
pass): each code holds iff the checks before it pass and its own check
fails; and on every failure past the two argument checks (codes 3..11,
which run after the struct is zeroed) ready is false on return, while the
code-1 and code-2 failures return before touching the struct. -/
theorem bloom_load_result_codes (sz : Nat) (bn : Bool) (fn : List Nat)
    (file : Option SavedFile) (ok : Bool) (prev : Bloom) :
    ((bloom_load sz bn fn file ok prev).1 = 1 ↔ fn = []) ∧
    ((bloom_load sz bn fn file ok prev).1 = 2 ↔ fn ≠ [] ∧ bn = true) ∧
    ((bloom_load sz bn fn file ok prev).1 = 3 ↔
      fn ≠ [] ∧ bn = false ∧ file = none) ∧
    ((bloom_load sz bn fn file ok prev).1 = 4 ↔
      fn ≠ [] ∧ bn = false ∧ ∃ fl, file = some fl ∧
        fl.magic.length ≠ bloomMagic.length) ∧
    ((bloom_load sz bn fn file ok prev).1 = 5 ↔
      fn ≠ [] ∧ bn = false ∧ ∃ fl, file = some fl ∧
        fl.magic.length = bloomMagic.length ∧ fl.magic ≠ bloomMagic) ∧
    ((bloom_load sz bn fn file ok prev).1 = 6 ↔
      fn ≠ [] ∧ bn = false ∧ ∃ fl, file = some fl ∧
        fl.magic = bloomMagic ∧ fl.sizeField = none) ∧
    ((bloom_load sz bn fn file ok prev).1 = 7 ↔
      fn ≠ [] ∧ bn = false ∧ ∃ fl s, file = some fl ∧
        fl.magic = bloomMagic ∧ fl.sizeField = some s ∧ s ≠ sz) ∧
    ((bloom_load sz bn fn file ok prev).1 = 8 ↔
      fn ≠ [] ∧ bn = false ∧ ∃ fl p, file = some fl ∧
        fl.magic = bloomMagic ∧ fl.sizeField = some sz ∧
        fl.meta = MetaRead.sub p) ∧
    ((bloom_load sz bn fn file ok prev).1 = 9 ↔
      fn ≠ [] ∧ bn = false ∧ ∃ fl m, file = some fl ∧
        fl.magic = bloomMagic ∧ fl.sizeField = some sz ∧
        fl.meta = MetaRead.full m ∧ m.major ≠ BLOOM_VERSION_MAJOR) ∧
    ((bloom_load sz bn fn file ok prev).1 = 10 ↔
      fn ≠ [] ∧ bn = false ∧ ∃ fl m, file = some fl ∧
        fl.magic = bloomMagic ∧ fl.sizeField = some sz ∧
        fl.meta = MetaRead.full m ∧ m.major = BLOOM_VERSION_MAJOR ∧
        ok = false) ∧
    ((bloom_load sz bn fn file ok prev).1 = 11 ↔
      fn ≠ [] ∧ bn = false ∧ ∃ fl m, file = some fl ∧
        fl.magic = bloomMagic ∧ fl.sizeField = some sz ∧
        fl.meta = MetaRead.full m ∧ m.major = BLOOM_VERSION_MAJOR ∧
        ok = true ∧ fl.buf.length < m.bytes) ∧
    ((bloom_load sz bn fn file ok prev).1 = 0 ↔
      fn ≠ [] ∧ bn = false ∧ ∃ fl m, file = some fl ∧
        fl.magic = bloomMagic ∧ fl.sizeField = some sz ∧
        fl.meta = MetaRead.full m ∧ m.major = BLOOM_VERSION_MAJOR ∧
        ok = true ∧ ¬ fl.buf.length < m.bytes) ∧
    (3 ≤ (bloom_load sz bn fn file ok prev).1 →
      (bloom_load sz bn fn file ok prev).2.ready = false) := by
  by_cases h1 : fn = []
  · simp [bloom_load, h1]
  · cases bn with
    | true => simp [bloom_load, h1]
    | false =>
      rcases file with _ | fl
      · simp [bloom_load, h1, emptyBloom]
      · by_cases h4 : fl.magic.length = bloomMagic.length
        · by_cases h5 : fl.magic = bloomMagic
          · rcases hsf : fl.sizeField with _ | s
            · simp [bloom_load, h1, h4, h5, hsf, emptyBloom]
            · by_cases h7 : s = sz
              · rcases hmr : fl.meta with p | m
                · simp [bloom_load, h1, h4, h5, hsf, h7, hmr, emptyBloom]
                · by_cases h9 : m.major = BLOOM_VERSION_MAJOR
                  · cases ok with
                    | false =>
                      simp [bloom_load, h1, h4, h5, hsf, h7, hmr, h9,
                        emptyBloom, bloomOfMeta]
                    | true =>
                      by_cases h11 : fl.buf.length < m.bytes
                      · simp [bloom_load, h1, h4, h5, hsf, h7, hmr, h9, h11,
                          emptyBloom, bloomOfMeta]
                      · simp [bloom_load, h1, h4, h5, hsf, h7, hmr, h9, h11,
                          emptyBloom, bloomOfMeta]
                        omega
                  · simp [bloom_load, h1, h4, h5, hsf, h7, hmr, h9,
                      emptyBloom, bloomOfMeta]
              · simp [bloom_load, h1, h4, h5, hsf, h7, emptyBloom]
          · simp [bloom_load, h1, h4, h5, emptyBloom]
        · have h5n : fl.magic ≠ bloomMagic := fun e => h4 (by rw [e])
          simp [bloom_load, h1, h4, h5n, emptyBloom]

/-- C7 witness: the code-1 characterization applied at a concrete call with
an empty filename. -/
theorem bloom_load_result_codes_witness :
    (bloom_load 80 false ([] : List Nat) none true F1).1 = 1 :=
  (bloom_load_result_codes 80 false [] none true F1).1.mpr rfl

/-- C8 counterexample: bloom_loadcustom with an empty filename fails with
code 1 but returns before touching the struct: a previously ready filter is
returned unchanged, still ready and not zeroed — refuting the claim that
every failure leaves the filter in the empty/unready state. -/
theorem bloom_loadcustom_atomicity_counterexample :
    bloom_loadcustom [] (some (MetaRead.full (metaOf F1))) (some [0, 0]) true F1
      = (1, F1) ∧ F1.ready = true ∧ F1 ≠ emptyBloom := by
  refine ⟨rfl, rfl, fun h => ?_⟩
  have hready := congrArg Bloom.ready h
  simp [F1, emptyBloom] at hready

/-- C8 amended: every bloom_loadcustom failure returns the non-zero code 1
and never leaves an allocated buffer behind, but the filter is reset to the
zeroed unready state only on allocation failure or a short buffer read; on
an empty filename or a missing file it is left untouched, and after a short
metadata read it holds whatever the truncated read produced. -/
theorem bloom_loadcustom_failure_states (fn : List Nat) (blm : Option MetaRead)
    (dat : Option (List Nat)) (ok : Bool) (prev : Bloom) :
    ((bloom_loadcustom fn blm dat ok prev).1 = 0 ∨
      (bloom_loadcustom fn blm dat ok prev).1 = 1) ∧
    ((bloom_loadcustom fn blm dat ok prev).1 ≠ 0 →
      ((bloom_loadcustom fn blm dat ok prev).2 = prev ∧
        (fn = [] ∨ blm = none ∨ dat = none)) ∨
      (∃ p, blm = some (MetaRead.sub p) ∧
        (bloom_loadcustom fn blm dat ok prev).2 = p) ∨
      ((bloom_loadcustom fn blm dat ok prev).2 = emptyBloom ∧
        emptyBloom.ready = false ∧ emptyBloom.bf = [])) := by
  by_cases h1 : fn = []
  · have hout : bloom_loadcustom fn blm dat ok prev = (1, prev) := by
      simp [bloom_loadcustom, h1]
    rw [hout]
    exact ⟨Or.inr rfl, fun _ => Or.inl ⟨rfl, Or.inl h1⟩⟩
  · rcases blm with _ | mr
    · have hout : bloom_loadcustom fn none dat ok prev = (1, prev) := by
        simp [bloom_loadcustom, h1]
      rw [hout]
      exact ⟨Or.inr rfl, fun _ => Or.inl ⟨rfl, Or.inr (Or.inl rfl)⟩⟩
    · rcases dat with _ | datBytes
      · have hout : bloom_loadcustom fn (some mr) none ok prev = (1, prev) := by
          simp [bloom_loadcustom, h1]
        rw [hout]
        exact ⟨Or.inr rfl, fun _ => Or.inl ⟨rfl, Or.inr (Or.inr rfl)⟩⟩
      · rcases mr with p | m
        · have hout : bloom_loadcustom fn (some (MetaRead.sub p))
              (some datBytes) ok prev = (1, p) := by
            simp [bloom_loadcustom, h1]
          rw [hout]
          exact ⟨Or.inr rfl, fun _ => Or.inr (Or.inl ⟨p, rfl, rfl⟩)⟩
        · cases ok with
          | false =>
            have hout : bloom_loadcustom fn (some (MetaRead.full m))
                (some datBytes) false prev = (1, emptyBloom) := by
              simp [bloom_loadcustom, h1]
            rw [hout]
            exact ⟨Or.inr rfl, fun _ => Or.inr (Or.inr ⟨rfl, rfl, rfl⟩)⟩
          | true =>
            by_cases hlen : datBytes.length < m.bytes
            · have hout : bloom_loadcustom fn (some (MetaRead.full m))
                  (some datBytes) true prev = (1, emptyBloom) := by
                simp [bloom_loadcustom, h1, hlen]
              rw [hout]
              exact ⟨Or.inr rfl, fun _ => Or.inr (Or.inr ⟨rfl, rfl, rfl⟩)⟩
            · have hout : bloom_loadcustom fn (some (MetaRead.full m))
                  (some datBytes) true prev =
                    (0, bloomOfMeta m (datBytes.take m.bytes)) := by
                simp [bloom_loadcustom, h1, hlen]
              rw [hout]
              exact ⟨Or.inl rfl, fun h0 => absurd rfl h0⟩

/-- C8 witness: the failure-state theorem applied at a concrete failing
call. -/
theorem bloom_loadcustom_failure_states_witness :
    (bloom_loadcustom [] none none true F1).1 = 0 ∨
      (bloom_loadcustom [] none none true F1).1 = 1 :=
  (bloom_loadcustom_failure_states [] none none true F1).1

end KeyhuntBloom
